import Mathlib

/-!
# Verification of the `async-iterator` crate's core protocol

A shallow embedding of the crate's sequence-producer protocol.  An async
iterator is modelled as a state machine: `next : σ → Option (α × σ)` returns
`none` for the terminal "no more items" signal or an item together with the
advanced state.  Suspension points of the `async fn`s are unobservable at the
level of values, so `await` chains are flattened into plain function calls.
Loops that in Rust run until the producer terminates (`Filter::next`,
`Vec::from_iter`, `Vec::extend`) are given an explicit fuel argument bounding
the number of `next` calls; an exhausted fuel returns `none` at the outer
`Option`, modelling a drain that has not yet finished.
-/

namespace AsyncIter

universe u v w

variable {σ : Type u} {α : Type v} {β : Type w}

/-- The `Iterator` trait (src/iter/mod.rs): `async fn next(&mut self)` is a
state transformer returning `none` for the terminal signal, and
`size_hint(&self)` reads the state without advancing it. -/
structure Iterator (σ : Type u) (α : Type v) where
  next : σ → Option (α × σ)
  size_hint : σ → Nat × Option Nat

/-- The trait-provided default body of `size_hint` (src/iter/mod.rs lines
22-24): `(0, None)`, "no information". -/
def size_hint_default (σ : Type u) : σ → Nat × Option Nat :=
  fun _ => ((0 : Nat), none)

/-- The blanket `impl<I: Iterator> IntoIterator for I`
(src/into_iterator.rs lines 15-22): `into_iter(self)` returns `self`. -/
def IntoIterator.into_iter (it : Iterator σ α) : Iterator σ α :=
  it

/-- `struct Map { stream, f }` (src/iter/map.rs lines 6-9). -/
structure Map (σ : Type u) (α : Type v) (β : Type w) where
  stream : Iterator σ α
  f : α → β

/-- `Map::new` (src/iter/map.rs lines 11-15). -/
def Map.new (stream : Iterator σ α) (f : α → β) : Map σ α β :=
  ⟨stream, f⟩

/-- `Map::next` (src/iter/map.rs lines 25-29): `?`-propagate the wrapped
producer's terminal signal, otherwise apply `f` and yield the result. -/
def Map.next (m : Map σ α β) (s : σ) : Option (β × σ) :=
  match m.stream.next s with
  | none => none
  | some (item, s') => some (m.f item, s')

/-- The `impl Iterator for Map` (src/iter/map.rs lines 17-30): `next` is
`Map.next`; the impl does NOT override `size_hint`, so the trait default
`(0, None)` applies. -/
def Map.toIterator (m : Map σ α β) : Iterator σ β where
  next := m.next
  size_hint := size_hint_default σ

/-- `Iterator::map` (src/iter/mod.rs lines 28-34): `Map::new(self, f)`,
viewed through its `Iterator` impl. -/
def Iterator.map (it : Iterator σ α) (f : α → β) : Iterator σ β :=
  (Map.new it f).toIterator

/-- `struct Filter { iter, predicate }` (src/iter/filter.rs lines 10-18). -/
structure Filter (σ : Type u) (α : Type v) where
  iter : Iterator σ α
  predicate : α → Bool

/-- `Filter::new` (src/iter/filter.rs lines 51-56). -/
def Filter.new (stream : Iterator σ α) (predicate : α → Bool) : Filter σ α :=
  ⟨stream, predicate⟩

/-- `Iterator::filter` (src/iter/mod.rs lines 37-44): `Filter::new(self, p)`. -/
def Iterator.filter (it : Iterator σ α) (predicate : α → Bool) : Filter σ α :=
  Filter.new it predicate

/-- `Filter::next` (src/iter/filter.rs lines 25-32): loop — pull from the
wrapped producer, `?`-propagate its terminal signal, return the first item the
predicate accepts, otherwise continue the loop.  `fuel` bounds the number of
loop iterations (equivalently, inner `next` calls); the outer `none` means the
loop has not returned within `fuel` iterations. -/
def Filter.next (fl : Filter σ α) : Nat → σ → Option (Option (α × σ))
  | 0, _ => none
  | fuel + 1, s =>
    match fl.iter.next s with
    | none => some none
    | some (item, s') =>
      if fl.predicate item then some (some (item, s'))
      else Filter.next fl fuel s'

/-- `Filter::size_hint` (src/iter/filter.rs lines 34-37):
`let (_, upper) = self.iter.size_hint(); (0, upper)`. -/
def Filter.size_hint (fl : Filter σ α) (s : σ) : Nat × Option Nat :=
  ((0 : Nat), (fl.iter.size_hint s).2)

/-- `Vec::with_capacity`: allocation capacity does not affect the contents of
the vector, which starts empty. -/
def Vec.with_capacity (_capacity : Nat) : List α :=
  []

/-- `Vec::push`: append one element at the end. -/
def Vec.push (v : List α) (item : α) : List α :=
  v ++ [item]

/-- `Vec::reserve`: capacity reservation does not affect contents. -/
def Vec.reserve (v : List α) (_additional : Nat) : List α :=
  v

/-- The `while let Some(item) = iter.next().await { output.push(item) }` loop
of `Vec::from_iter` (src/from_iterator.rs lines 18-20), with fuel bounding the
number of `next` calls; `none` means the producer did not terminate within the
fuel. -/
def Vec.from_iter_loop (iter : Iterator σ α) : Nat → σ → List α → Option (List α)
  | 0, _, _ => none
  | fuel + 1, s, output =>
    match iter.next s with
    | none => some output
    | some (item, s') => Vec.from_iter_loop iter fuel s' (Vec.push output item)

/-- `impl FromIterator<T> for Vec<T>::from_iter` (src/from_iterator.rs lines
14-23): convert via `into_iter`, pre-allocate from the size hint's upper bound
(`unwrap_or_default`), then drain in order. -/
def Vec.from_iter (it : Iterator σ α) (fuel : Nat) (s : σ) : Option (List α) :=
  let iter := IntoIterator.into_iter it
  Vec.from_iter_loop iter fuel s (Vec.with_capacity ((iter.size_hint s).2.getD 0))

/-- `Iterator::collect` (src/iter/mod.rs lines 49-55): delegates to
`FromIterator::from_iter`, here at the target `Vec`. -/
def Iterator.collect (it : Iterator σ α) (fuel : Nat) (s : σ) : Option (List α) :=
  Vec.from_iter it fuel s

/-- The `while let Some(item) = iter.next().await { self.push(item) }` loop of
`Vec::extend` (src/extend.rs lines 42-44), with fuel bounding the number of
`next` calls. -/
def Vec.extend_loop (iter : Iterator σ α) : Nat → σ → List α → Option (List α)
  | 0, _, _ => none
  | fuel + 1, s, self =>
    match iter.next s with
    | none => some self
    | some (item, s') => Vec.extend_loop iter fuel s' (Vec.push self item)

/-- `impl Extend<T> for Vec<T>::extend` (src/extend.rs lines 14-22): convert
via `into_iter`, reserve additional capacity from the size hint's upper bound,
then append every produced item in order. -/
def Vec.extend (self : List α) (it : Iterator σ α) (fuel : Nat) (s : σ) :
    Option (List α) :=
  let iter := IntoIterator.into_iter it
  Vec.extend_loop iter fuel s (Vec.reserve self ((iter.size_hint s).2.getD 0))

/-- `impl LendingIterator for Lend<I>::next` (src/iter/lend.rs lines 18-21):
pull from the wrapped producer and pair the item with a reference to the
wrapped producer.  The shared reference `&self.0` is modelled by the value it
denotes: the wrapped iterator together with its state after the inner `next`
call. -/
def Iterator.lend (it : Iterator σ α) : Iterator σ ((Iterator σ α × σ) × α) where
  next := fun s =>
    match it.next s with
    | none => none
    | some (item, s') => some (((it, s'), item), s')
  size_hint := size_hint_default σ

/-- `impl LendingIterator for LendMut<I>::next` (src/iter/lend_mut.rs lines
42-45): as `lend`, but the reference `&mut self.0` is exclusive; the value it
denotes is the same wrapped iterator and post-call state. -/
def Iterator.lend_mut (it : Iterator σ α) : Iterator σ ((Iterator σ α × σ) × α) where
  next := fun s =>
    match it.next s with
    | none => none
    | some (item, s') => some (((it, s'), item), s')
  size_hint := size_hint_default σ

/-- The `while let Some(item) = iter.next().await { output.push(item) }` loop
of `Vec::from_iter` (src/from_iterator.rs lines 18-20) instantiated at a
`Filter` iterator: each call to the filter adapter's `next` runs its inner
loop with per-call fuel `F`; `fuel` bounds the number of outer loop
iterations.  `none` means some call did not finish within its fuel. -/
def Vec.from_iter_filter_loop (fl : Filter σ α) (F : Nat) :
    Nat → σ → List α → Option (List α)
  | 0, _, _ => none
  | fuel + 1, s, output =>
    match Filter.next fl F s with
    | none => none
    | some none => some output
    | some (some (item, s')) =>
      Vec.from_iter_filter_loop fl F fuel s' (Vec.push output item)

/-- `Vec::from_iter` (src/from_iterator.rs lines 14-23) instantiated at a
`Filter` iterator: pre-allocate from the filter's size hint, then drain. -/
def Vec.from_iter_filter (fl : Filter σ α) (F fuel : Nat) (s : σ) :
    Option (List α) :=
  Vec.from_iter_filter_loop fl F fuel s
    (Vec.with_capacity ((Filter.size_hint fl s).2.getD 0))

/-- `Iterator::collect` (src/iter/mod.rs lines 49-55) at a `Filter` iterator
with target `Vec`: delegates to `from_iter`. -/
def Filter.collect (fl : Filter σ α) (F fuel : Nat) (s : σ) : Option (List α) :=
  Vec.from_iter_filter fl F fuel s

/-- `step s l`: starting from state `s` the producer yields exactly the items
of `l`, in order, and then signals termination.  This is the "finite producer
yielding `[i1, ..., in]`" of the specification. -/
inductive Yields (step : σ → Option (α × σ)) : σ → List α → Prop
  | nil {s : σ} : step s = none → Yields step s []
  | cons {s s' : σ} {a : α} {l : List α} :
      step s = some (a, s') → Yields step s' l → Yields step s (a :: l)

/-- A reference producer for concrete test runs: iterates over a list, with an
exact size hint. -/
def listIter (α : Type v) : Iterator (List α) α where
  next := fun s =>
    match s with
    | [] => none
    | a :: rest => some (a, rest)
  size_hint := fun s => (s.length, some s.length)

/-! ## Helper lemmas -/

/-- One iteration of the `from_iter` drain loop. -/
lemma from_iter_loop_succ (iter : Iterator σ α) (fuel : Nat) (s : σ)
    (output : List α) :
    Vec.from_iter_loop iter (fuel + 1) s output =
      match iter.next s with
      | none => some output
      | some (item, s') => Vec.from_iter_loop iter fuel s' (Vec.push output item) :=
  rfl

/-- One iteration of the `extend` drain loop. -/
lemma extend_loop_succ (iter : Iterator σ α) (fuel : Nat) (s : σ)
    (self : List α) :
    Vec.extend_loop iter (fuel + 1) s self =
      match iter.next s with
      | none => some self
      | some (item, s') => Vec.extend_loop iter fuel s' (Vec.push self item) :=
  rfl

/-- Draining a producer that yields `l` needs `l.length + 1` calls to `next`
(one per item plus the terminal call) and appends `l` to the accumulator. -/
lemma from_iter_loop_yields (iter : Iterator σ α) {s : σ} {l : List α}
    (h : Yields iter.next s l) (output : List α) :
    Vec.from_iter_loop iter (l.length + 1) s output = some (output ++ l) := by
  induction h generalizing output with
  | nil h0 => simp [Vec.from_iter_loop, h0]
  | cons hstep _ ih =>
    rw [List.length_cons, from_iter_loop_succ, hstep]
    simp [Vec.push, ih]

/-- The `extend` loop drains a producer yielding `l` within `l.length + 1`
calls to `next`, appending `l` to the existing contents. -/
lemma extend_loop_yields (iter : Iterator σ α) {s : σ} {l : List α}
    (h : Yields iter.next s l) (self : List α) :
    Vec.extend_loop iter (l.length + 1) s self = some (self ++ l) := by
  induction h generalizing self with
  | nil h0 => simp [Vec.extend_loop, h0]
  | cons hstep _ ih =>
    rw [List.length_cons, extend_loop_succ, hstep]
    simp [Vec.push, ih]

/-- `Map.next` over a producer yielding `l` yields `l.map f`. -/
lemma yields_map {it : Iterator σ α} (f : α → β) {s : σ} {l : List α}
    (h : Yields it.next s l) :
    Yields (Iterator.map it f).next s (l.map f) := by
  induction h with
  | nil h0 =>
    exact Yields.nil (by
      simp [Iterator.map, Map.toIterator, Map.new, Map.next, h0])
  | cons hstep _ ih =>
    exact Yields.cons (by
      simp [Iterator.map, Map.toIterator, Map.new, Map.next, hstep]) ih

/-- The lend adapter yields the wrapped producer's items, each paired with
the wrapped iterator and its post-call state. -/
lemma yields_lend {it : Iterator σ α} {s : σ} {l : List α}
    (h : Yields it.next s l) :
    ∃ L, Yields (Iterator.lend it).next s L ∧ L.map Prod.snd = l ∧
      ∀ x ∈ L, x.1.1 = it := by
  induction h with
  | nil h0 =>
    exact ⟨[], Yields.nil (by simp [Iterator.lend, h0]), rfl, by simp⟩
  | @cons s s' a l hstep _ ih =>
    obtain ⟨L, hL, hmap, href⟩ := ih
    refine ⟨((it, s'), a) :: L, Yields.cons ?_ hL, by simp [hmap], ?_⟩
    · simp [Iterator.lend, hstep]
    · intro x hx
      rcases List.mem_cons.mp hx with hx | hx
      · simp [hx]
      · exact href x hx

/-- The two lending adapters are the same state machine in this embedding:
shared vs. exclusive borrowing has no value-level content. -/
lemma lend_eq_lend_mut (it : Iterator σ α) :
    Iterator.lend it = Iterator.lend_mut it := rfl

/-! ## Claim theorems -/

/-- C1: for every finite producer `P` yielding `[i1, ..., in]` in order,
collecting `P` into a `Vec` via `collect`/`from_iter` terminates within
`n + 1` calls to `next` and returns exactly `[i1, ..., in]`, in producer
order. -/
theorem c1_collect_exact (it : Iterator σ α) (s : σ) (l : List α)
    (h : Yields it.next s l) :
    Iterator.collect it (l.length + 1) s = some l := by
  have := from_iter_loop_yields it h []
  simpa [Iterator.collect, Vec.from_iter, IntoIterator.into_iter,
    Vec.with_capacity] using this

theorem c1_collect_exact_witness :
    Yields (listIter ℕ).next [10, 20] [10, 20] ∧
      Iterator.collect (listIter ℕ) 3 [10, 20] = some [10, 20] := by
  have hy : Yields (listIter ℕ).next [10, 20] [10, 20] :=
    Yields.cons rfl (Yields.cons rfl (Yields.nil rfl))
  exact ⟨hy, c1_collect_exact (listIter ℕ) [10, 20] [10, 20] hy⟩

/-- C2: for every finite producer `P` yielding `[i1, ..., in]` and every
function `f`, collecting `map(P, f)` yields exactly `[f i1, ..., f in]`:
one output per input, in producer order. -/
theorem c2_collect_map (it : Iterator σ α) (f : α → β) (s : σ) (l : List α)
    (h : Yields it.next s l) :
    Iterator.collect (Iterator.map it f) (l.length + 1) s = some (l.map f) := by
  have hm := yields_map f h
  have := from_iter_loop_yields (Iterator.map it f) hm []
  simpa [Iterator.collect, Vec.from_iter, IntoIterator.into_iter,
    Vec.with_capacity] using this

theorem c2_collect_map_witness :
    Yields (listIter ℕ).next [1, 2, 3] [1, 2, 3] ∧
      Iterator.collect (Iterator.map (listIter ℕ) (fun n => 2 * n)) 4 [1, 2, 3] =
        some [2, 4, 6] := by
  have hy : Yields (listIter ℕ).next [1, 2, 3] [1, 2, 3] :=
    Yields.cons rfl (Yields.cons rfl (Yields.cons rfl (Yields.nil rfl)))
  exact ⟨hy, c2_collect_map (listIter ℕ) (fun n => 2 * n) [1, 2, 3] [1, 2, 3] hy⟩

/-- C5: extending a container holding `[a1, ..., am]` with a finite producer
yielding `[b1, ..., bn]` leaves exactly `[a1, ..., am, b1, ..., bn]`: the
existing elements are unchanged and the produced items are appended after
them in producer order. -/
theorem c5_extend_appends (self : List α) (it : Iterator σ α) (s : σ)
    (l : List α) (h : Yields it.next s l) :
    Vec.extend self it (l.length + 1) s = some (self ++ l) := by
  have := extend_loop_yields it h self
  simpa [Vec.extend, IntoIterator.into_iter, Vec.reserve] using this

theorem c5_extend_appends_witness :
    Yields (listIter ℕ).next [3, 4] [3, 4] ∧
      Vec.extend [1, 2] (listIter ℕ) 3 [3, 4] = some [1, 2, 3, 4] := by
  have hy : Yields (listIter ℕ).next [3, 4] [3, 4] :=
    Yields.cons rfl (Yields.cons rfl (Yields.nil rfl))
  exact ⟨hy, c5_extend_appends [1, 2] (listIter ℕ) [3, 4] [3, 4] hy⟩

/-- C7: when the wrapped producer signals termination, `Map::next` returns
the terminal signal without invoking the function: the result is `none` and
is the same no matter which function the adapter holds. -/
theorem c7_map_terminal (it : Iterator σ α) (f : α → β) (s : σ)
    (h : it.next s = none) :
    (Iterator.map it f).next s = none ∧
      ∀ g : α → β, (Iterator.map it f).next s = (Iterator.map it g).next s := by
  constructor
  · simp [Iterator.map, Map.toIterator, Map.new, Map.next, h]
  · intro g
    simp [Iterator.map, Map.toIterator, Map.new, Map.next, h]

theorem c7_map_terminal_witness :
    (listIter ℕ).next [] = none ∧
      ((Iterator.map (listIter ℕ) (fun n => n + 1)).next [] = none ∧
        ∀ g : ℕ → ℕ, (Iterator.map (listIter ℕ) (fun n => n + 1)).next [] =
          (Iterator.map (listIter ℕ) g).next []) :=
  ⟨rfl, c7_map_terminal (listIter ℕ) (fun n => n + 1) [] rfl⟩

/-- C8: the blanket `IntoIterator` conversion is the identity: it returns the
producer itself, so the converted object has the same `next` behaviour and
the same size hints, with no failure mode. -/
theorem c8_into_iter_identity (it : Iterator σ α) :
    IntoIterator.into_iter it = it ∧
      (IntoIterator.into_iter it).next = it.next ∧
      (IntoIterator.into_iter it).size_hint = it.size_hint :=
  ⟨rfl, rfl, rfl⟩

/-- C4 counterexample: the `Iterator` impl for `Map` does not override
`size_hint`, so the adapter reports the trait default `(0, none)` even when
the wrapped producer reports exact bounds. -/
theorem c4_counterexample :
    (Iterator.map (listIter ℕ) (fun n => n + 1)).size_hint [5] ≠
      (listIter ℕ).size_hint [5] := by
  decide

/-- C4 (amended): for every producer and function, the map adapter's
`size_hint` is the trait default `(0, none)`, independent of the wrapped
producer's hint. -/
theorem c4_map_size_hint_default (it : Iterator σ α) (f : α → β) (s : σ) :
    (Iterator.map it f).size_hint s = ((0 : Nat), (none : Option Nat)) :=
  rfl

/-- C6: the filter adapter's size hint has lower bound zero and inherits the
wrapped producer's upper bound unchanged (present exactly when the wrapped
producer reports one). -/
theorem c6_filter_size_hint (it : Iterator σ α) (p : α → Bool) (s : σ) :
    Filter.size_hint (Iterator.filter it p) s =
      ((0 : Nat), (it.size_hint s).2) :=
  rfl

/-- C9: each `next` on `lend(P)` / `lend_mut(P)` delegates to the wrapped
producer: on an item it returns the pair of a reference to the wrapped
producer (modelled by the iterator and its post-call state) and the exact
item; on termination it propagates the terminal signal; consequently the
value sequence through either lending adapter equals `P`'s item sequence. -/
theorem c9_lend_delegates (it : Iterator σ α) (s : σ) (l : List α)
    (h : Yields it.next s l) :
    (∀ t, it.next t = none →
        (Iterator.lend it).next t = none ∧ (Iterator.lend_mut it).next t = none) ∧
    (∀ t a t', it.next t = some (a, t') →
        (Iterator.lend it).next t = some (((it, t'), a), t') ∧
        (Iterator.lend_mut it).next t = some (((it, t'), a), t')) ∧
    (∃ L, Yields (Iterator.lend it).next s L ∧ L.map Prod.snd = l ∧
        ∀ x ∈ L, x.1.1 = it) ∧
    (∃ M, Yields (Iterator.lend_mut it).next s M ∧ M.map Prod.snd = l ∧
        ∀ x ∈ M, x.1.1 = it) := by
  refine ⟨?_, ?_, yields_lend h, ?_⟩
  · intro t ht
    constructor <;> simp [Iterator.lend, Iterator.lend_mut, ht]
  · intro t a t' ht
    constructor <;> simp [Iterator.lend, Iterator.lend_mut, ht]
  · rw [← lend_eq_lend_mut]
    exact yields_lend h

theorem c9_lend_delegates_witness :
    Yields (listIter ℕ).next [7] [7] ∧
      ((∀ t, (listIter ℕ).next t = none →
          (Iterator.lend (listIter ℕ)).next t = none ∧
          (Iterator.lend_mut (listIter ℕ)).next t = none) ∧
      (∀ t a t', (listIter ℕ).next t = some (a, t') →
          (Iterator.lend (listIter ℕ)).next t = some (((listIter ℕ, t'), a), t') ∧
          (Iterator.lend_mut (listIter ℕ)).next t = some (((listIter ℕ, t'), a), t')) ∧
      (∃ L, Yields (Iterator.lend (listIter ℕ)).next [7] L ∧
          L.map Prod.snd = [7] ∧ ∀ x ∈ L, x.1.1 = listIter ℕ) ∧
      (∃ M, Yields (Iterator.lend_mut (listIter ℕ)).next [7] M ∧
          M.map Prod.snd = [7] ∧ ∀ x ∈ M, x.1.1 = listIter ℕ)) := by
  have hy : Yields (listIter ℕ).next [7] [7] :=
    Yields.cons rfl (Yields.nil rfl)
  exact ⟨hy, c9_lend_delegates (listIter ℕ) [7] [7] hy⟩

/-- The `Filter::next` loop when the wrapped producer signals termination:
the terminal signal is propagated. -/
lemma filter_next_none_step (fl : Filter σ α) (fuel : Nat) (s : σ)
    (h : fl.iter.next s = none) :
    Filter.next fl (fuel + 1) s = some none := by
  unfold Filter.next
  rw [h]

/-- The `Filter::next` loop when the wrapped producer yields an accepted
item: the item is returned. -/
lemma filter_next_accept_step (fl : Filter σ α) (fuel : Nat) (s : σ)
    (item : α) (s' : σ) (h : fl.iter.next s = some (item, s'))
    (hp : fl.predicate item = true) :
    Filter.next fl (fuel + 1) s = some (some (item, s')) := by
  unfold Filter.next
  rw [h]
  simp [hp]

/-- The `Filter::next` loop when the wrapped producer yields a rejected item:
the loop continues from the advanced state, one unit of fuel consumed. -/
lemma filter_next_reject_step (fl : Filter σ α) (fuel : Nat) (s : σ)
    (item : α) (s' : σ) (h : fl.iter.next s = some (item, s'))
    (hp : fl.predicate item = false) :
    Filter.next fl (fuel + 1) s = Filter.next fl fuel s' := by
  conv_lhs => unfold Filter.next
  rw [h]
  simp [hp]

/-- `Filter::next` is monotone in its fuel: once the loop returns within some
fuel, any larger fuel gives the same result. -/
lemma filter_next_mono (fl : Filter σ α) :
    ∀ {F F' : Nat} {s : σ} {r : Option (α × σ)},
      Filter.next fl F s = some r → F ≤ F' → Filter.next fl F' s = some r := by
  intro F
  induction F with
  | zero => intro F' s r h _; simp [Filter.next] at h
  | succ F ih =>
    intro F' s r h hle
    obtain ⟨F'', rfl⟩ : ∃ F'', F' = F'' + 1 := ⟨F' - 1, by omega⟩
    have hle' : F ≤ F'' := by omega
    cases hnext : fl.iter.next s with
    | none =>
      rw [filter_next_none_step fl F s hnext] at h
      rw [filter_next_none_step fl F'' s hnext]
      exact h
    | some x =>
      obtain ⟨item, s'⟩ := x
      by_cases hp : fl.predicate item
      · rw [filter_next_accept_step fl F s item s' hnext hp] at h
        rw [filter_next_accept_step fl F'' s item s' hnext hp]
        exact h
      · have hp' : fl.predicate item = false := by simpa using hp
        rw [filter_next_reject_step fl F s item s' hnext hp'] at h
        rw [filter_next_reject_step fl F'' s item s' hnext hp']
        exact ih h hle'

/-- When the wrapped producer yields `l` and the predicate rejects all of
`l`, `Filter::next` propagates the terminal signal within `l.length + 1`
loop iterations. -/
lemma filter_next_of_filter_nil {fl : Filter σ α} {s : σ} {l : List α}
    (h : Yields fl.iter.next s l) (hf : l.filter fl.predicate = []) :
    Filter.next fl (l.length + 1) s = some none := by
  induction h with
  | nil h0 => exact filter_next_none_step fl 0 _ h0
  | @cons s s' a l hstep _ ih =>
    rw [List.filter_cons] at hf
    by_cases hp : fl.predicate a
    · rw [if_pos hp] at hf
      simp at hf
    · have hp' : fl.predicate a = false := by simpa using hp
      rw [if_neg hp] at hf
      rw [List.length_cons,
        filter_next_reject_step fl (l.length + 1) s a s' hstep hp']
      exact ih hf

/-- When the wrapped producer yields `l` and the predicate accepts some item,
`Filter::next` returns the first accepted item within `l.length + 1` loop
iterations, leaving the producer about to yield a strictly shorter suffix
whose accepted items are the remaining accepted ones. -/
lemma filter_next_of_filter_cons {fl : Filter σ α} {s : σ} {l : List α}
    {a : α} {rest : List α} (h : Yields fl.iter.next s l)
    (hf : l.filter fl.predicate = a :: rest) :
    ∃ s' suf, Filter.next fl (l.length + 1) s = some (some (a, s')) ∧
      Yields fl.iter.next s' suf ∧ suf.filter fl.predicate = rest ∧
      suf.length < l.length := by
  induction h generalizing a rest with
  | nil _ => simp at hf
  | @cons s s' b l hstep htl ih =>
    rw [List.filter_cons] at hf
    by_cases hp : fl.predicate b
    · rw [if_pos hp] at hf
      injection hf with hb hrest
      subst hb
      refine ⟨s', l, ?_, htl, hrest, by simp⟩
      rw [List.length_cons]
      exact filter_next_accept_step fl (l.length + 1) s b s' hstep hp
    · have hp' : fl.predicate b = false := by simpa using hp
      rw [if_neg hp] at hf
      obtain ⟨s₂, suf, heq, hy, hsuf, hlen⟩ := ih hf
      refine ⟨s₂, suf, ?_, hy, hsuf, by simpa using Nat.lt_succ_of_lt hlen⟩
      rw [List.length_cons,
        filter_next_reject_step fl (l.length + 1) s b s' hstep hp']
      exact heq

/-- One outer iteration of the drain loop over a filter adapter, when the
filter's `next` signals termination. -/
lemma from_iter_filter_loop_term (fl : Filter σ α) (F fuel : Nat) (s : σ)
    (output : List α) (h : Filter.next fl F s = some none) :
    Vec.from_iter_filter_loop fl F (fuel + 1) s output = some output := by
  unfold Vec.from_iter_filter_loop
  rw [h]

/-- One outer iteration of the drain loop over a filter adapter, when the
filter's `next` yields an item. -/
lemma from_iter_filter_loop_item (fl : Filter σ α) (F fuel : Nat) (s : σ)
    (output : List α) (item : α) (s' : σ)
    (h : Filter.next fl F s = some (some (item, s'))) :
    Vec.from_iter_filter_loop fl F (fuel + 1) s output =
      Vec.from_iter_filter_loop fl F fuel s' (Vec.push output item) := by
  conv_lhs => unfold Vec.from_iter_filter_loop
  rw [h]

/-- Draining a filter over a producer that yields `l` succeeds when the
per-call fuel covers `l.length + 1` inner `next` calls and the outer loop may
run more than `l.length` times; the result appends exactly the accepted
items, in order. -/
lemma from_iter_filter_loop_yields (fl : Filter σ α) (F : Nat) :
    ∀ (k : Nat) {s : σ} {l : List α} (output : List α),
      Yields fl.iter.next s l → l.length < k → l.length + 1 ≤ F →
      Vec.from_iter_filter_loop fl F k s output =
        some (output ++ l.filter fl.predicate) := by
  intro k
  induction k with
  | zero => intro s l output _ hk _; omega
  | succ k ih =>
    intro s l output h hk hF
    cases hf : l.filter fl.predicate with
    | nil =>
      have h1 := filter_next_mono fl (filter_next_of_filter_nil h hf) hF
      rw [from_iter_filter_loop_term fl F k s output h1]
      simp
    | cons a rest =>
      obtain ⟨s', suf, heq, hy, hsuf, hlen⟩ := filter_next_of_filter_cons h hf
      have h1 := filter_next_mono fl heq hF
      rw [from_iter_filter_loop_item fl F k s output a s' h1]
      rw [ih (Vec.push output a) hy (by omega) (by omega), hsuf, Vec.push]
      simp

/-- C3: for every finite producer `P` yielding `[i1, ..., in]` and every
predicate `pred`, collecting `filter(P, pred)` yields exactly the accepted
subsequence of `[i1, ..., in]` in its original relative order; each call to
the adapter's `next` loops over the wrapped producer's items, returning the
first accepted one and propagating the terminal signal, so fuel `n + 1` per
call and `n + 1` outer iterations suffice. -/
theorem c3_collect_filter (it : Iterator σ α) (p : α → Bool) (s : σ)
    (l : List α) (h : Yields it.next s l) :
    Filter.collect (Iterator.filter it p) (l.length + 1) (l.length + 1) s =
      some (l.filter p) := by
  have h1 := from_iter_filter_loop_yields (Iterator.filter it p)
    (l.length + 1) (l.length + 1) (Vec.with_capacity
      ((Filter.size_hint (Iterator.filter it p) s).2.getD 0)) h
    (by omega) (by omega)
  simpa [Filter.collect, Vec.from_iter_filter, Vec.with_capacity] using h1

theorem c3_collect_filter_witness :
    Yields (listIter ℕ).next [1, 2, 3, 4] [1, 2, 3, 4] ∧
      Filter.collect (Iterator.filter (listIter ℕ) (fun n => n % 2 == 0)) 5 5
        [1, 2, 3, 4] = some [2, 4] := by
  have hy : Yields (listIter ℕ).next [1, 2, 3, 4] [1, 2, 3, 4] :=
    Yields.cons rfl (Yields.cons rfl (Yields.cons rfl
      (Yields.cons rfl (Yields.nil rfl))))
  refine ⟨hy, ?_⟩
  have := c3_collect_filter (listIter ℕ) (fun n => n % 2 == 0)
    [1, 2, 3, 4] [1, 2, 3, 4] hy
  simpa using this

/-- C10: for a wrapped producer that yields finitely many items (`l`) before
the terminal signal, one call to the filter adapter's `next` terminates
within `l.length + 1` loop iterations (one inner `next` call per iteration),
and fully draining the filter terminates as well. -/
theorem c10_filter_terminates (it : Iterator σ α) (p : α → Bool) (s : σ)
    (l : List α) (h : Yields it.next s l) :
    (Filter.next (Iterator.filter it p) (l.length + 1) s).isSome = true ∧
      (Filter.collect (Iterator.filter it p) (l.length + 1) (l.length + 1)
        s).isSome = true := by
  constructor
  · cases hf : l.filter (Iterator.filter it p).predicate with
    | nil =>
      rw [filter_next_of_filter_nil h hf]
      rfl
    | cons a rest =>
      obtain ⟨s', suf, heq, _, _, _⟩ := filter_next_of_filter_cons h hf
      rw [heq]
      rfl
  · have h1 := from_iter_filter_loop_yields (Iterator.filter it p)
      (l.length + 1) (l.length + 1) (Vec.with_capacity
        ((Filter.size_hint (Iterator.filter it p) s).2.getD 0)) h
      (by omega) (by omega)
    simp [Filter.collect, Vec.from_iter_filter, h1]

theorem c10_filter_terminates_witness :
    Yields (listIter ℕ).next [1, 2] [1, 2] ∧
      ((Filter.next (Iterator.filter (listIter ℕ) (fun _ => false)) 3
          [1, 2]).isSome = true ∧
        (Filter.collect (Iterator.filter (listIter ℕ) (fun _ => false)) 3 3
          [1, 2]).isSome = true) := by
  have hy : Yields (listIter ℕ).next [1, 2] [1, 2] :=
    Yields.cons rfl (Yields.cons rfl (Yields.nil rfl))
  exact ⟨hy, c10_filter_terminates (listIter ℕ) (fun _ => false) [1, 2]
    [1, 2] hy⟩

end AsyncIter
